import Mathlib

/-!
Shallow embedding of the typelist / tuple / variant metaprogramming toolkit
of this repository (src/src/typelist.hpp, src/src/tuple.cpp, and the variant
implementation).  A typelist is modelled as a Lean list of abstract elements
(the C++ "types"); each compile-time metafunction becomes a Lean function on
lists.  The tuple's runtime operations are modelled on lists of values with an
explicit per-element copy operation so that copy counts are observable.  The
variant is modelled as a state (discriminator + buffer contents) together with
an event trace recording destructor calls, placement constructions, in-place
assignments and discriminator writes.
-/

namespace jc

/- ### Typelist algebra (src/src/typelist.hpp) -/

/-- Embeds the primary template instantiation failure of the C++ metafunction
front (only defined on a non-empty typelist) as an Option. -/
def front : List α → Option α
  | [] => none
  | h :: _ => some h

/-- pop_front: only defined on a non-empty typelist. -/
def pop_front : List α → Option (List α)
  | [] => none
  | _ :: t => some t

/-- push_front: prepend an element. -/
def push_front (l : List α) (e : α) : List α := e :: l

/-- push_back, generic O(n) strategy of push_back_impl: on the empty list,
push_front the new element; otherwise push_front the head onto the push_back
of the tail.  (The specialized flat-pack strategy computes the same list.) -/
def push_back : List α → α → List α
  | [], e => push_front [] e
  | h :: t, e => push_front (push_back t e) h

/-- reverse: push_back the head onto the reversed tail; empty list reverses to
itself. -/
def reverse : List α → List α
  | [] => []
  | h :: t => push_back (reverse t) h

/-- Modelled from the spec: the length query of a typelist (its number of
elements).  No named length metafunction exists in src; the code obtains it
as sizeof...(Elements) on the underlying parameter pack. -/
def length (l : List α) : Nat := l.length

/-- largest_type, parameterized by the sizeof function sz and the element
char0 standing for the C++ type char (the result on the empty list).  On a
non-empty list the head is kept whenever sizeof(contender) >= sizeof(best). -/
def largest_type (sz : α → Nat) (char0 : α) : List α → α
  | [] => char0
  | h :: t =>
      let best := largest_type sz char0 t
      if sz best ≤ sz h then h else best

/-- insert_sorted: if Compare(Element, front) then the element becomes the new
head with the whole list as tail, otherwise the head is kept and the element
is inserted into the tail. -/
def insert_sorted (cmp : α → α → Bool) : List α → α → List α
  | [], e => push_front [] e
  | h :: t, e => if cmp e h then e :: h :: t else h :: insert_sorted cmp t e

/-- insertion_sort: insert the head into the sorted tail. -/
def insertion_sort (cmp : α → α → Bool) : List α → List α
  | [] => []
  | h :: t => insert_sorted cmp (insertion_sort cmp t) h

/- ### Tuple (src/src/tuple.cpp) -/

/-- tuple_get (struct tuple_get<N>): walk N tail steps then take the head;
out-of-range N is a compile failure in C++, embedded as none. -/
def tuple_get : Nat → List α → Option α
  | _, [] => none
  | 0, h :: _ => some h
  | n + 1, _ :: t => tuple_get n t

/-- operator== on tuples: empty tuples compare equal; non-empty tuples compare
heads then tails.  Comparing tuples of unequal arity is rejected at compile
time in C++ (enable_if on sizeof...(Tail1) == sizeof...(Tail2)); the catch-all
false case is unreachable for the arities the C++ code accepts. -/
def tuple_eq (eq : α → β → Bool) : List α → List β → Bool
  | [], [] => true
  | h1 :: t1, h2 :: t2 => eq h1 h2 && tuple_eq eq t1 t2
  | _, _ => false

/-- make_tuple: constructs a tuple from the argument values, copying each
argument exactly once into its slot (the tuple constructor forwards each
argument into its tuple_elt).  The copy operation is explicit so that copy
counts are observable. -/
def make_tuple (copy : α → α) (args : List α) : List α := args.map copy

/-- select_tuple(t, index_sequence<Indices...>): make_tuple(get<Indices>(t)...).
Each get returns a reference (no copy); make_tuple then copies each selected
element once.  Invalid indices are compile failures in C++ and are dropped
here (they never occur for the index lists the code builds). -/
def select_tuple (copy : α → α) (t : List α) (idx : List Nat) : List α :=
  idx.filterMap (fun i => (t.get? i).map copy)

/-- reverse_tuple: a single select_tuple pass driven by the precomputed index
list reverse_t<index_sequence_for<Types...>> (the typelist reverse applied to
the index sequence 0,...,n-1). -/
def reverse_tuple (copy : α → α) (t : List α) : List α :=
  select_tuple copy t (reverse (List.range t.length))

/-- print_tuple, modelled as the sequence of stream insertions it performs:
the empty tuple inserts a single character, a parenthesis chosen by is_first;
a non-empty tuple inserts the separator (open parenthesis when first, comma
and space otherwise) then its head, then recurses on the tail with
is_first = false. -/
def print_tuple (elemStr : α → String) : List α → Bool → List String
  | [], isFirst => [if isFirst then ("(") else (")")]
  | h :: t, isFirst =>
      (if isFirst then ("(") else (", ")) :: elemStr h :: print_tuple elemStr t false

/-- operator<< for tuples calls print_tuple with is_first defaulted to true. -/
def ostream_insert (elemStr : α → String) (t : List α) : List String :=
  print_tuple elemStr t true

/- ### Concrete C++ value universe used by the tuple tests -/

/-- Values appearing in the tuple round-trip test: ints, doubles (modelled as
rationals; only construction, storage and equality of the literal 3.14 are
used) and strings. -/
inductive CVal
  | intV : Int → CVal
  | doubleV : ℚ → CVal
  | strV : String → CVal
deriving DecidableEq

/-- Slot comparison on CVal values. -/
def cvalEq (a b : CVal) : Bool := decide (a = b)

/-- The tuple built from (42, 3.14, "downdemo") in test_make_tuple. -/
def sampleTuple : List CVal :=
  [CVal.intV 42, CVal.doubleV 3.14, CVal.strV ("downdemo")]

/- ### Variant (variant_storage / variant_choice / variant, src/unnamed/part_002) -/

/-- The observable state of a variant: the discriminator (0 = empty, i = the
alternative with 1-based index i is live) and the contents of the shared raw
buffer, abstracted to a single value of type Val. -/
structure VState (Val : Type) where
  disc : Nat
  buf : Val
deriving DecidableEq

/-- Events a variant operation performs, in order: running alternative i's
destructor on the buffer, placement-constructing alternative i in the buffer,
assigning in place onto the live alternative i, and writing the
discriminator. -/
inductive VEvent
  | dtor (i : Nat)
  | ctor (i : Nat)
  | assignInPlace (i : Nat)
  | setDisc (d : Nat)
deriving DecidableEq

/-- variant_choice<T, Types...>::Discriminator values: the 1-based indices
1, ..., n of the n alternative types (find_index_of_t + 1 for each T in
Types...). -/
def discriminators (n : Nat) : List Nat := (List.range n).map (fun k => k + 1)

/-- variant_choice::destroy for the alternative with discriminator i: runs
T's destructor on the buffer exactly when the stored discriminator equals i
(the buffer bytes and discriminator are unchanged by the destructor call
itself). -/
def choice_destroy (i : Nat) (s : VState Val) : List VEvent :=
  if s.disc = i then [VEvent.dtor i] else []

/-- variant::destroy: the fold expression (variant_choice<Types,
Types...>::destroy(), ...) runs each mixin's destroy left to right, then
set_discriminator(0). -/
def variant_destroy (n : Nat) (s : VState Val) : VState Val × List VEvent :=
  let evs := (discriminators n).foldl (fun acc i => acc ++ choice_destroy i s) []
  ({ s with disc := 0 }, evs ++ [VEvent.setDisc 0])

/-- The outcome of an operation that may throw: ok with the resulting state,
or thrown with the state left behind when the exception propagates. -/
inductive AssignOutcome (Val : Type)
  | ok (s : VState Val)
  | thrown (s : VState Val)
deriving DecidableEq

/-- variant_choice::operator= for the alternative with discriminator i,
assigning the value v.  ctorOk models whether T's copy/move construction into
the buffer succeeds (placement-new T(value)); assignOk models whether T's
in-place copy/move assignment succeeds.  If the stored discriminator already
equals i, assign in place onto the live object; otherwise destroy() the whole
variant (which resets the discriminator to 0), placement-construct T in the
buffer, and only then set the discriminator to i. -/
def choice_assign (n i : Nat) (v : Val) (ctorOk assignOk : Bool) (s : VState Val) :
    AssignOutcome Val × List VEvent :=
  if s.disc = i then
    if assignOk then (AssignOutcome.ok { s with buf := v }, [VEvent.assignInPlace i])
    else (AssignOutcome.thrown s, [])
  else
    let d := variant_destroy n s
    if ctorOk then
      (AssignOutcome.ok { d.1 with buf := v, disc := i },
        d.2 ++ [VEvent.ctor i, VEvent.setDisc i])
    else
      (AssignOutcome.thrown d.1, d.2)

/-- variant::is<T> for the alternative whose variant_choice Discriminator is
i: compares the stored discriminator with i. -/
def variant_is (i : Nat) (s : VState Val) : Bool := s.disc = i

/-- variant::empty: the discriminator is 0. -/
def variant_empty (s : VState Val) : Bool := s.disc = 0

/-- The runtime error channels of variant::get: the distinct catchable
empty_variant exception thrown on an empty variant, and the assert(is<T>())
that fires on a wrong-alternative access. -/
inductive VErr
  | emptyVariant
  | assertWrongType
deriving DecidableEq

/-- variant::get<T> for the alternative with discriminator i: throw
empty_variant if the variant is empty, assert is<T>(), then return the buffer
reinterpreted as T. -/
def variant_get (i : Nat) (s : VState Val) : Except VErr Val :=
  if variant_empty s then Except.error VErr.emptyVariant
  else if variant_is i s then Except.ok s.buf
  else Except.error VErr.assertWrongType

/-- variant_visit_impl over the remaining typelist of alternatives (given by
their discriminators): if is<Head> holds apply the visitor to get<Head>(),
otherwise recurse on the tail; when the list is exhausted throw
empty_variant. -/
def variant_visit_impl (s : VState Val) (vis : Nat → Val → R) :
    List Nat → Except VErr R
  | [] => Except.error VErr.emptyVariant
  | i :: rest =>
      if variant_is i s then Except.ok (vis i s.buf)
      else variant_visit_impl s vis rest

/-- variant::visit: variant_visit_impl over typelist<Types...>, i.e. over all
n alternatives in declaration order. -/
def variant_visit (n : Nat) (s : VState Val) (vis : Nat → Val → R) :
    Except VErr R :=
  variant_visit_impl s vis (discriminators n)

/-- variant_choice's converting constructor from a value of alternative i:
starting from the default-constructed storage (discriminator 0, junk buffer
bytes), placement-construct the value in the buffer, then set the
discriminator. -/
def variant_value_ctor (i : Nat) (v junk : Val) : VState Val :=
  let s0 : VState Val := { disc := 0, buf := junk }
  { s0 with buf := v, disc := i }

/-- variant's default constructor: *this = front_t<typelist<Types...>>(), an
assignment of the first alternative's default-constructed value (discriminator
1) onto the default-constructed storage.  d1 is that default value; ctorOk
models whether constructing it in the buffer succeeds. -/
def variant_default_ctor (n : Nat) (d1 junk : Val) (ctorOk : Bool) :
    AssignOutcome Val × List VEvent :=
  choice_assign n 1 d1 ctorOk true { disc := 0, buf := junk }

/- ### Helper lemmas about the variant model -/

lemma foldl_append_eq (f : α → List β) :
    ∀ (l : List α) (acc : List β),
      l.foldl (fun a i => a ++ f i) acc = acc ++ l.flatMap f := by
  intro l
  induction l with
  | nil => intro acc; simp
  | cons h t ih => intro acc; simp [ih, List.append_assoc]

lemma bind_if_single (g : Nat → β) :
    ∀ (l : List Nat) (a : Nat), l.Nodup →
      (l.flatMap fun i => if a = i then [g i] else []) =
        if a ∈ l then [g a] else [] := by
  intro l
  induction l with
  | nil => simp
  | cons h t ih =>
    intro a hnd
    rcases List.nodup_cons.mp hnd with ⟨hht, hndt⟩
    by_cases hah : a = h
    · subst hah
      simp [List.flatMap_cons, ih a hndt, hht]
    · simp [List.flatMap_cons, hah, ih a hndt, List.mem_cons]

lemma discriminators_nodup (n : Nat) : (discriminators n).Nodup :=
  (List.nodup_range n).map (add_left_injective 1)

lemma mem_discriminators {n a : Nat} : a ∈ discriminators n ↔ 1 ≤ a ∧ a ≤ n := by
  unfold discriminators
  simp only [List.mem_map, List.mem_range]
  constructor
  · rintro ⟨k, hk, rfl⟩
    omega
  · rintro ⟨h1, h2⟩
    exact ⟨a - 1, by omega, by omega⟩

lemma variant_destroy_fst (n : Nat) (s : VState Val) :
    (variant_destroy n s).1 = { s with disc := 0 } := rfl

lemma variant_destroy_events (n : Nat) (s : VState Val) (h : s.disc ≤ n) :
    (variant_destroy n s).2 =
      (if 1 ≤ s.disc then [VEvent.dtor s.disc] else []) ++ [VEvent.setDisc 0] := by
  show ((discriminators n).foldl (fun a i => a ++ choice_destroy i s) []) ++ _ = _
  rw [foldl_append_eq (fun i => choice_destroy i s) (discriminators n) []]
  unfold choice_destroy
  rw [bind_if_single VEvent.dtor (discriminators n) s.disc (discriminators_nodup n)]
  by_cases h1 : 1 ≤ s.disc
  · simp [mem_discriminators, h1, h]
  · simp [mem_discriminators, h1]

lemma visit_impl_no_match (s : VState Val) (vis : Nat → Val → R) :
    ∀ l : List Nat, (∀ j ∈ l, s.disc ≠ j) →
      variant_visit_impl s vis l = Except.error VErr.emptyVariant := by
  intro l
  induction l with
  | nil => intro _; rfl
  | cons h t ih =>
    intro hall
    have hh : s.disc ≠ h := hall h (by simp)
    simp only [variant_visit_impl, variant_is]
    rw [if_neg (by simpa using hh)]
    exact ih (fun j hj => hall j (by simp [hj]))

/- ### Claim theorems: variant -/

/-- Claim C1: if a variant holds alternative a and a value of a different
alternative i is assigned and i's copy/move construction into the buffer
throws, then after the exception propagates the variant has discriminator 0,
is not holding a and not holding i, and its destructor subsequently performs
no alternative destructor call (its whole event trace is the final
discriminator write). -/
theorem variant_assign_throw_leaves_empty
    {Val : Type} (n i a : Nat) (v : Val) (s : VState Val) (assignOk : Bool)
    (hs : s.disc = a) (ha1 : 1 ≤ a) (hi1 : 1 ≤ i) (hne : a ≠ i) :
    choice_assign n i v false assignOk s
        = (AssignOutcome.thrown { s with disc := 0 }, (variant_destroy n s).2) ∧
    ({ s with disc := 0 } : VState Val).disc = 0 ∧
    variant_is a ({ s with disc := 0 } : VState Val) = false ∧
    variant_is i ({ s with disc := 0 } : VState Val) = false ∧
    (variant_destroy n ({ s with disc := 0 } : VState Val)).2 = [VEvent.setDisc 0] := by
  have hni : s.disc ≠ i := by rw [hs]; exact hne
  refine ⟨?_, rfl, ?_, ?_, ?_⟩
  · simp [choice_assign, hni, variant_destroy]
  · simp only [variant_is]
    simp only [decide_eq_false_iff_not]
    omega
  · simp only [variant_is]
    simp only [decide_eq_false_iff_not]
    omega
  · rw [variant_destroy_events n ({ s with disc := 0 }) (by simp)]
    simp

/-- Witness for C1 at a two-alternative variant holding alternative 1 when
constructing alternative 2 throws. -/
theorem variant_assign_throw_leaves_empty_witness :
    ((⟨1, 5⟩ : VState Nat).disc = 1 ∧ 1 ≤ 1 ∧ 1 ≤ 2 ∧ 1 ≠ 2) ∧
    (choice_assign 2 2 (7 : Nat) false true (⟨1, 5⟩ : VState Nat)
        = (AssignOutcome.thrown ⟨0, 5⟩, (variant_destroy 2 (⟨1, 5⟩ : VState Nat)).2) ∧
      (⟨0, 5⟩ : VState Nat).disc = 0 ∧
      variant_is 1 (⟨0, 5⟩ : VState Nat) = false ∧
      variant_is 2 (⟨0, 5⟩ : VState Nat) = false ∧
      (variant_destroy 2 (⟨0, 5⟩ : VState Nat)).2 = [VEvent.setDisc 0]) :=
  ⟨⟨rfl, by decide, by decide, by decide⟩,
    variant_assign_throw_leaves_empty 2 2 1 7 ⟨1, 5⟩ true rfl
      (by decide) (by decide) (by decide)⟩

/-- Claim C2: assigning a value of alternative i to a variant whose
discriminator already equals i assigns in place and leaves the discriminator
unchanged; assigning it in any other state first destroys the active
alternative (if any), then constructs i in the buffer, then sets the
discriminator to i, in that order (the destroy step itself writes
discriminator 0 in between). -/
theorem variant_assign_state_machine
    {Val : Type} (n i a : Nat) (v : Val) (s : VState Val) (ctorOk assignOk : Bool)
    (hs : s.disc = a) (han : a ≤ n) :
    (a = i → choice_assign n i v ctorOk true s
        = (AssignOutcome.ok { s with buf := v }, [VEvent.assignInPlace i])) ∧
    (a ≠ i → choice_assign n i v true assignOk s
        = (AssignOutcome.ok { s with disc := i, buf := v },
           (if 1 ≤ a then [VEvent.dtor a] else [])
             ++ [VEvent.setDisc 0, VEvent.ctor i, VEvent.setDisc i])) := by
  constructor
  · intro hai
    have hsi : s.disc = i := by rw [hs, hai]
    simp [choice_assign, hsi]
  · intro hne
    have hni : s.disc ≠ i := by rw [hs]; exact hne
    have hev := variant_destroy_events n s (by rw [hs]; exact han)
    simp only [choice_assign, if_neg hni]
    rw [hev, hs]
    simp [List.append_assoc]

/-- Witness for C2 at a two-alternative variant holding alternative 1:
in-place reassignment of alternative 1, and cross-alternative assignment to
alternative 2. -/
theorem variant_assign_state_machine_witness :
    ((⟨1, 5⟩ : VState Nat).disc = 1 ∧ 1 ≤ 2) ∧
    choice_assign 2 1 (7 : Nat) true true (⟨1, 5⟩ : VState Nat)
        = (AssignOutcome.ok ⟨1, 7⟩, [VEvent.assignInPlace 1]) ∧
    choice_assign 2 2 (7 : Nat) true true (⟨1, 5⟩ : VState Nat)
        = (AssignOutcome.ok ⟨2, 7⟩,
           [VEvent.dtor 1, VEvent.setDisc 0, VEvent.ctor 2, VEvent.setDisc 2]) := by
  refine ⟨⟨rfl, by decide⟩, ?_, ?_⟩
  · exact (variant_assign_state_machine 2 1 1 7 ⟨1, 5⟩ true true rfl (by decide)).1 rfl
  · have h := (variant_assign_state_machine 2 2 1 7 ⟨1, 5⟩ true true rfl
      (by decide)).2 (by decide)
    simpa using h

/-- Claim C3: on a variant whose discriminator is 0, get for any alternative
and visit both signal the distinct catchable empty_variant condition (not the
wrong-alternative assertion); in particular after destroy() every subsequent
get raises it. -/
theorem variant_empty_access_raises
    {Val R : Type} (n i : Nat) (s : VState Val) (vis : Nat → Val → R)
    (h : s.disc = 0) :
    variant_get i s = Except.error VErr.emptyVariant ∧
    variant_visit n s vis = Except.error VErr.emptyVariant ∧
    (∀ (m j : Nat) (s0 : VState Val),
      variant_get j (variant_destroy m s0).1 = Except.error VErr.emptyVariant) := by
  refine ⟨?_, ?_, ?_⟩
  · simp [variant_get, variant_empty, h]
  · exact visit_impl_no_match s vis (discriminators n)
      (fun j hj => by have := (mem_discriminators.mp hj).1; omega)
  · intro m j s0
    simp [variant_get, variant_empty, variant_destroy]

/-- Witness for C3 at an empty two-alternative variant. -/
theorem variant_empty_access_raises_witness :
    (⟨0, 9⟩ : VState Nat).disc = 0 ∧
    (variant_get 1 (⟨0, 9⟩ : VState Nat) = Except.error VErr.emptyVariant ∧
     variant_visit 2 (⟨0, 9⟩ : VState Nat) (fun _ v => v)
        = Except.error VErr.emptyVariant ∧
     (∀ (m j : Nat) (s0 : VState Nat),
       variant_get j (variant_destroy m s0).1 = Except.error VErr.emptyVariant)) :=
  ⟨rfl, variant_empty_access_raises 2 1 ⟨0, 9⟩ (fun _ v => v) rfl⟩

/-- Claim C4: a default-constructed variant holds the first alternative's
default value with discriminator 1 (never empty after default construction),
and constructing a variant from a value of the alternative with 0-based index
tIdx yields discriminator tIdx + 1 with the value constructed in the shared
buffer. -/
theorem variant_ctor_discriminator
    {Val : Type} (n tIdx : Nat) (d1 junk v : Val) (hn : 1 ≤ n) :
    variant_default_ctor n d1 junk true
        = (AssignOutcome.ok { disc := 1, buf := d1 },
           [VEvent.setDisc 0, VEvent.ctor 1, VEvent.setDisc 1]) ∧
    variant_empty ({ disc := 1, buf := d1 } : VState Val) = false ∧
    variant_is 1 ({ disc := 1, buf := d1 } : VState Val) = true ∧
    variant_value_ctor (tIdx + 1) v junk = ({ disc := tIdx + 1, buf := v } : VState Val) := by
  refine ⟨?_, by simp [variant_empty], by simp [variant_is], rfl⟩
  have hev := variant_destroy_events n ({ disc := 0, buf := junk } : VState Val)
    (by simp)
  unfold variant_default_ctor
  simp only [choice_assign, if_neg (by simp : (({ disc := 0, buf := junk } : VState Val)).disc ≠ 1),
    if_pos rfl]
  rw [hev]
  simp

/-- Witness for C4 at a two-alternative variant over Nat values. -/
theorem variant_ctor_discriminator_witness :
    1 ≤ 2 ∧
    (variant_default_ctor 2 (0 : Nat) 9 true
        = (AssignOutcome.ok ⟨1, 0⟩,
           [VEvent.setDisc 0, VEvent.ctor 1, VEvent.setDisc 1]) ∧
     variant_empty (⟨1, 0⟩ : VState Nat) = false ∧
     variant_is 1 (⟨1, 0⟩ : VState Nat) = true ∧
     variant_value_ctor 2 (7 : Nat) 9 = (⟨2, 7⟩ : VState Nat)) :=
  ⟨by decide, variant_ctor_discriminator 2 1 0 9 7 (by decide)⟩

/- ### Helper lemmas about the typelist algorithms -/

lemma push_back_eq_append (l : List α) (e : α) : push_back l e = l ++ [e] := by
  induction l with
  | nil => rfl
  | cons h t ih => simp [push_back, push_front, ih]

lemma reverse_eq_list_reverse (l : List α) : reverse l = l.reverse := by
  induction l with
  | nil => rfl
  | cons h t ih => simp [reverse, push_back_eq_append, ih]

lemma insert_sorted_perm (cmp : α → α → Bool) (e : α) :
    ∀ l : List α, (insert_sorted cmp l e).Perm (e :: l) := by
  intro l
  induction l with
  | nil => simp [insert_sorted, push_front]
  | cons h t ih =>
    by_cases hc : cmp e h = true
    · simp [insert_sorted, hc]
    · simp only [insert_sorted, if_neg hc]
      exact (ih.cons h).trans (List.Perm.swap e h t)

lemma insert_sorted_chain (cmp : α → α → Bool)
    (hasym : ∀ a b, cmp a b = true → cmp b a = false) (e : α) :
    ∀ l : List α, List.Chain' (fun x y => cmp y x = false) l →
      List.Chain' (fun x y => cmp y x = false) (insert_sorted cmp l e) := by
  intro l
  induction l with
  | nil => intro _; simp [insert_sorted, push_front]
  | cons h t ih =>
    intro hch
    rcases List.chain'_cons'.mp hch with ⟨hhd, hct⟩
    by_cases hc : cmp e h = true
    · simp only [insert_sorted, if_pos hc]
      exact List.chain'_cons.mpr ⟨hasym e h hc, hch⟩
    · simp only [insert_sorted, if_neg hc]
      apply List.chain'_cons'.mpr
      refine ⟨?_, ih hct⟩
      intro y hy
      cases t with
      | nil =>
        simp [insert_sorted, push_front] at hy
        subst hy
        exact Bool.eq_false_iff.mpr hc
      | cons h2 t2 =>
        by_cases hc2 : cmp e h2 = true
        · simp [insert_sorted, hc2] at hy
          subst hy
          exact Bool.eq_false_iff.mpr hc
        · simp [insert_sorted, hc2] at hy
          subst hy
          exact hhd h2 (by simp)

lemma insertion_sort_chain (cmp : α → α → Bool)
    (hasym : ∀ a b, cmp a b = true → cmp b a = false) :
    ∀ l : List α, List.Chain' (fun x y => cmp y x = false) (insertion_sort cmp l) := by
  intro l
  induction l with
  | nil => simp [insertion_sort]
  | cons h t ih => exact insert_sorted_chain cmp hasym h _ ih

lemma largest_type_cons (sz : α → Nat) (char0 h : α) (t : List α) :
    largest_type sz char0 (h :: t) =
      if sz (largest_type sz char0 t) ≤ sz h then h else largest_type sz char0 t := rfl

/- ### Claim theorems: typelist -/

/-- Claim C5: for every typelist and asymmetric (strict total order) comparison
predicate, insertion_sort returns a permutation of the list in which every
adjacent pair (earlier, later) satisfies Cmp(later, earlier) = false. -/
theorem insertion_sort_perm_sorted (cmp : α → α → Bool) (l : List α)
    (hasym : ∀ a b, cmp a b = true → cmp b a = false) :
    (insertion_sort cmp l).Perm l ∧
    List.Chain' (fun earlier later => cmp later earlier = false)
      (insertion_sort cmp l) := by
  constructor
  · induction l with
    | nil => simp [insertion_sort]
    | cons h t ih =>
      exact (insert_sorted_perm cmp h (insertion_sort cmp t)).trans (ih.cons h)
  · exact insertion_sort_chain cmp hasym l

/-- Witness for C5: sorting the list of Fin 3 elements 2, 0, 1 by the strict
order on Fin 3. -/
theorem insertion_sort_perm_sorted_witness :
    (∀ a b : Fin 3, (decide (a < b)) = true → (decide (b < a)) = false) ∧
    ((insertion_sort (fun a b : Fin 3 => decide (a < b)) [2, 0, 1]).Perm [2, 0, 1] ∧
     List.Chain' (fun earlier later : Fin 3 => (decide (later < earlier)) = false)
       (insertion_sort (fun a b : Fin 3 => decide (a < b)) [2, 0, 1])) :=
  ⟨by decide,
    insertion_sort_perm_sorted (fun a b : Fin 3 => decide (a < b)) [2, 0, 1] (by decide)⟩

/-- Claim C6: typelist algebra laws — pop_front undoes push_front, front of a
push_front is the pushed element, reverse is an involution, and push_back
increases the length by one. -/
theorem typelist_algebra_laws (l : List α) (e : α) :
    pop_front (push_front l e) = some l ∧
    front (push_front l e) = some e ∧
    reverse (reverse l) = l ∧
    length (push_back l e) = length l + 1 := by
  refine ⟨rfl, rfl, ?_, ?_⟩
  · rw [reverse_eq_list_reverse, reverse_eq_list_reverse, List.reverse_reverse]
  · rw [push_back_eq_append]
    simp [length]

/-- Claim C7: on a non-empty typelist of C++ types (every sizeof at least 1,
sizeof char = 1), largest_type computes an element whose sizeof bounds every
element's sizeof, and it is the first element of the list attaining that
maximal sizeof (find? returns exactly it). -/
theorem largest_type_first_max (sz : α → Nat) (char0 : α) (l : List α)
    (hc : sz char0 = 1) (hl : l ≠ []) (hall : ∀ x ∈ l, 1 ≤ sz x) :
    (∀ x ∈ l, sz x ≤ sz (largest_type sz char0 l)) ∧
    l.find? (fun x => sz x == sz (largest_type sz char0 l))
      = some (largest_type sz char0 l) := by
  induction l with
  | nil => exact absurd rfl hl
  | cons h t ih =>
    cases t with
    | nil =>
      have h1 : 1 ≤ sz h := hall h (by simp)
      have hr : largest_type sz char0 [h] = h := by
        rw [largest_type_cons]
        simp only [largest_type, hc]
        rw [if_pos h1]
      rw [hr]
      refine ⟨?_, ?_⟩
      · intro x hx
        simp at hx
        subst hx
        exact le_refl _
      · simp
    | cons h2 t2 =>
      have ihr := ih (by simp) (fun x hx => hall x (by simp [hx]))
      rw [largest_type_cons]
      by_cases hge : sz (largest_type sz char0 (h2 :: t2)) ≤ sz h
      · rw [if_pos hge]
        refine ⟨?_, ?_⟩
        · intro x hx
          rcases List.mem_cons.mp hx with hx | hx
          · subst hx; exact le_refl _
          · exact le_trans (ihr.1 x hx) hge
        · exact List.find?_cons_of_pos _ (by simp)
      · rw [if_neg hge]
        refine ⟨?_, ?_⟩
        · intro x hx
          rcases List.mem_cons.mp hx with hx | hx
          · subst hx; omega
          · exact ihr.1 x hx
        · rw [List.find?_cons_of_neg _ (by simp; omega)]
          exact ihr.2

/-- Witness for C7: the list of sizes 2, 3, 3 over Nat with the identity
sizeof; the result is the first element of size 3. -/
theorem largest_type_first_max_witness :
    ((fun x : Nat => x) 1 = 1 ∧ ([2, 3, 3] : List Nat) ≠ [] ∧
      ∀ x ∈ ([2, 3, 3] : List Nat), 1 ≤ (fun x : Nat => x) x) ∧
    ((∀ x ∈ ([2, 3, 3] : List Nat),
        (fun x : Nat => x) x ≤ (fun x : Nat => x) (largest_type (fun x : Nat => x) 1 [2, 3, 3])) ∧
     ([2, 3, 3] : List Nat).find?
        (fun x => (fun x : Nat => x) x == (fun x : Nat => x) (largest_type (fun x : Nat => x) 1 [2, 3, 3]))
       = some (largest_type (fun x : Nat => x) 1 [2, 3, 3])) :=
  ⟨⟨rfl, by decide, by decide⟩,
    largest_type_first_max (fun x : Nat => x) 1 [2, 3, 3] rfl (by decide) (by decide)⟩

/- ### Helper lemmas about the tuple operations -/

lemma filterMap_congr_mem {f g : α → Option β} :
    ∀ l : List α, (∀ a ∈ l, f a = g a) → l.filterMap f = l.filterMap g := by
  intro l
  induction l with
  | nil => intro _; rfl
  | cons h t ih =>
    intro hall
    simp only [List.filterMap_cons, hall h (by simp)]
    rw [ih (fun a ha => hall a (by simp [ha]))]

lemma filterMap_get_reverse_range (t : List α) :
    ((List.range t.length).reverse).filterMap (fun i => t.get? i) = t.reverse := by
  induction t using List.reverseRecOn with
  | nil => rfl
  | append_singleton t x ih =>
    have hlen : (t ++ [x]).length = t.length + 1 := by simp
    rw [hlen, List.range_succ, List.reverse_append]
    simp only [List.reverse_cons, List.reverse_nil, List.nil_append, List.singleton_append,
      List.filterMap_cons]
    have hx : (t ++ [x]).get? t.length = some x := by
      rw [List.get?_append_right (le_refl _)]
      simp
    rw [hx]
    have hcongr : ((List.range t.length).reverse).filterMap (fun i => (t ++ [x]).get? i)
        = ((List.range t.length).reverse).filterMap (fun i => t.get? i) := by
      apply filterMap_congr_mem
      intro a ha
      have : a < t.length := by
        have := List.mem_reverse.mp ha
        exact List.mem_range.mp this
      exact List.get?_append this
    rw [hcongr, ih]
    simp

lemma reverse_tuple_eq (copy : α → α) (t : List α) :
    reverse_tuple copy t = (t.reverse).map copy := by
  unfold reverse_tuple select_tuple
  rw [reverse_eq_list_reverse]
  rw [← List.map_filterMap]
  rw [filterMap_get_reverse_range]

lemma tuple_eq_iff (eq : α → β → Bool) :
    ∀ (t1 : List α) (t2 : List β), t1.length = t2.length →
      (tuple_eq eq t1 t2 = true ↔ List.Forall₂ (fun a b => eq a b = true) t1 t2) := by
  intro t1
  induction t1 with
  | nil =>
    intro t2 hlen
    cases t2 with
    | nil => simp [tuple_eq]
    | cons h2 tl2 => simp at hlen
  | cons h1 tl1 ih =>
    intro t2 hlen
    cases t2 with
    | nil => simp at hlen
    | cons h2 tl2 =>
      simp only [tuple_eq, Bool.and_eq_true, List.forall₂_cons]
      rw [ih tl2 (by simpa using hlen)]

/- ### Claim theorems: tuple -/

/-- Claim C8: tuple equality is structural — tuples of equal arity compare
equal iff every corresponding slot compares equal, and empty tuples always
compare equal — and for the tuple built from (42, 3.14, "downdemo"):
get of slots 0, 1, 2 return the stored values, the tuple equals itself, and
reversing twice reproduces a tuple comparing equal to the original. -/
theorem tuple_eq_structural_roundtrip :
    (∀ (α β : Type) (eq : α → β → Bool) (t1 : List α) (t2 : List β),
        t1.length = t2.length →
          (tuple_eq eq t1 t2 = true ↔ List.Forall₂ (fun a b => eq a b = true) t1 t2)) ∧
    tuple_eq cvalEq ([] : List CVal) [] = true ∧
    tuple_get 0 sampleTuple = some (CVal.intV 42) ∧
    tuple_get 1 sampleTuple = some (CVal.doubleV 3.14) ∧
    tuple_get 2 sampleTuple = some (CVal.strV ("downdemo")) ∧
    tuple_eq cvalEq sampleTuple sampleTuple = true ∧
    tuple_eq cvalEq (reverse_tuple id (reverse_tuple id sampleTuple)) sampleTuple
      = true := by
  refine ⟨fun α β eq t1 t2 h => tuple_eq_iff eq t1 t2 h, rfl, rfl, rfl, rfl, ?_, ?_⟩
  · simp [tuple_eq, sampleTuple, cvalEq]
  · have h2 : reverse_tuple id (reverse_tuple id sampleTuple) = sampleTuple := by
      rw [reverse_tuple_eq, reverse_tuple_eq]
      simp
    rw [h2]
    simp [tuple_eq, sampleTuple, cvalEq]

/-- Claim C9: reverse_tuple is a single gather pass — for every tuple and
every element-copy operation, the result is exactly the reversed element
sequence with the copy operation applied once to each element; in particular
reversing a 5-element tuple of copy-counting elements performs exactly one
copy per element. -/
theorem reverse_tuple_single_copy :
    (∀ (α : Type) (copy : α → α) (t : List α),
        reverse_tuple copy t = (t.reverse).map copy) ∧
    reverse_tuple (fun e : Nat × Nat => (e.1, e.2 + 1))
        [(0, 0), (1, 0), (2, 0), (3, 0), (4, 0)]
      = [(4, 1), (3, 1), (2, 1), (1, 1), (0, 1)] := by
  refine ⟨fun α copy t => reverse_tuple_eq copy t, ?_⟩
  decide

/-- Claim C10: inserting an empty tuple into a stream writes exactly the
single character '(' and no closing parenthesis; the parenthesized
comma-space-separated format (with the ')' coming from the base case reached
with is_first = false) holds exactly for tuples of arity at least one. -/
theorem print_empty_tuple_open_paren :
    (∀ (α : Type) (elemStr : α → String),
        ostream_insert elemStr ([] : List α) = [("(")]) ∧
    (∀ (α : Type) (elemStr : α → String) (h : α) (t : List α),
        ostream_insert elemStr (h :: t)
          = ("(") :: elemStr h :: ((t.flatMap fun x => [(", "), elemStr x]) ++ [(")")])) := by
  constructor
  · intro α elemStr
    rfl
  · intro α elemStr h t
    show ("(") :: elemStr h :: print_tuple elemStr t false = _
    congr 2
    induction t with
    | nil => rfl
    | cons h2 t2 ih => simp [print_tuple, ih]

end jc
